import Mathlib

/-!
Verification of the two client-side source files of this repository:

* `addons/web/static/src/views/fields/url/url_field.js` — the `UrlField`
  widget (its `formattedHref` getter, its `setup` input hook, and the
  `FormUrlField` subclass), and
* `addons/web/static/src/legacy/js/core/minimal_dom.js` — `DEBOUNCE`,
  `makeAsyncHandler`, `makeButtonHandler` and `addButtonLoadingEffect`.

JavaScript values flowing through these functions are modelled by `JSVal`
(the primitive values a component prop can hold), DOM buttons by `Button`,
and the event-loop behaviour of the handlers by explicit step functions
over small state machines.  The regular-expression literal used by
`formattedHref` is embedded as a `Regex` syntax tree together with a
Brzozowski-derivative matcher modelling `RegExp.prototype.test` for a
pattern anchored at the start of the string.
-/

namespace Odoo

/-! ### JavaScript value model -/

/-- The JavaScript primitive values a field prop can hold: strings,
(integer) numbers, booleans, `null` and `undefined`. -/
inductive JSVal where
  | str (s : String)
  | num (n : Int)
  | boolean (b : Bool)
  | null
  | undefined
deriving DecidableEq, Repr

/-- JavaScript truthiness on `JSVal`: the falsy values are the empty
string, `0`, `false`, `null` and `undefined`. -/
def JSVal.truthy : JSVal → Bool
  | .str s => !(s == "")
  | .num n => !(n == 0)
  | .boolean b => b
  | .null => false
  | .undefined => false

/-- JavaScript `ToString` coercion on `JSVal` (as applied by a template
literal or a `RegExp.test` argument). -/
def JSVal.toStr : JSVal → String
  | .str s => s
  | .num n => toString n
  | .boolean true => "true"
  | .boolean false => "false"
  | .null => "null"
  | .undefined => "undefined"

/-- A JavaScript runtime error (only `TypeError` can arise in this code). -/
inductive JSErr where
  | typeError (msg : String)
deriving DecidableEq, Repr

/-- JavaScript `ToString` as a fallible operation: on every primitive value
of the prop domain the coercion succeeds (in full JavaScript only `Symbol`
values, which cannot appear in these props, would throw). -/
def JSVal.toStrE : JSVal → Except JSErr String
  | .str s => .ok s
  | .num n => .ok (toString n)
  | .boolean true => .ok "true"
  | .boolean false => .ok "false"
  | .null => .ok "null"
  | .undefined => .ok "undefined"

/-! ### Regular expressions with Brzozowski derivatives

The source file `url_field.js` contains the regular-expression literal
`/^((ftp|http)s?:\/)?\//i` and calls its `test` method.  We embed the
pattern as a syntax tree and model `test` by a derivative-based matcher;
the `i` flag is modelled by matching characters up to `Char.toLower`. -/

/-- Regular-expression syntax: the constructs appearing in the pattern of
`url_field.js` (empty language, empty string, single character, union,
concatenation, option `?`). -/
inductive Regex where
  | fail
  | eps
  | chr (c : Char)
  | alt (r1 r2 : Regex)
  | cat (r1 r2 : Regex)
  | opt (r : Regex)
deriving DecidableEq, Repr

/-- Case-insensitive character match (the `i` flag of the literal). -/
def cmatch (pat a : Char) : Bool := pat.toLower == a.toLower

/-- Does the regex accept the empty string? -/
def Regex.nullable : Regex → Bool
  | .fail => false
  | .eps => true
  | .chr _ => false
  | .alt r1 r2 => r1.nullable || r2.nullable
  | .cat r1 r2 => r1.nullable && r2.nullable
  | .opt _ => true

/-- Brzozowski derivative of a regex by one input character. -/
def Regex.deriv : Regex → Char → Regex
  | .fail, _ => .fail
  | .eps, _ => .fail
  | .chr c, a => if cmatch c a then .eps else .fail
  | .alt r1 r2, a => .alt (r1.deriv a) (r2.deriv a)
  | .cat r1 r2, a =>
      if r1.nullable then .alt (.cat (r1.deriv a) r2) (r2.deriv a)
      else .cat (r1.deriv a) r2
  | .opt r, a => r.deriv a

/-- Matching semantics of the regex syntax. -/
inductive RMatch : Regex → List Char → Prop where
  | eps : RMatch .eps []
  | chr {c a : Char} : cmatch c a = true → RMatch (.chr c) [a]
  | altl {r1 r2 : Regex} {w : List Char} : RMatch r1 w → RMatch (.alt r1 r2) w
  | altr {r1 r2 : Regex} {w : List Char} : RMatch r2 w → RMatch (.alt r1 r2) w
  | cat {r1 r2 : Regex} {w1 w2 : List Char} :
      RMatch r1 w1 → RMatch r2 w2 → RMatch (.cat r1 r2) (w1 ++ w2)
  | optNil {r : Regex} : RMatch (.opt r) []
  | optSome {r : Regex} {w : List Char} : RMatch r w → RMatch (.opt r) w

/-- `RegExp.prototype.test` for a pattern anchored with `^`: does some
initial segment of the input match the (anchor-stripped) pattern? -/
def Regex.search (r : Regex) : List Char → Bool
  | [] => r.nullable
  | a :: w => r.nullable || (r.deriv a).search w

/-- `test` on strings. -/
def jsRegexTest (r : Regex) (s : String) : Bool := r.search s.data

/-- Literal word as a regex, one `chr` per character. -/
def Regex.lit (s : String) : Regex := s.data.foldr (fun c r => .cat (.chr c) r) .eps

/-- The regex literal of `url_field.js` with the `^` anchor stripped
(anchoring is what `Regex.search` provides): `((ftp|http)s?:\/)?\/`. -/
def urlRegex : Regex :=
  .cat (.opt (.cat (.alt (.lit "ftp") (.lit "http"))
                   (.cat (.opt (.chr 's')) (.lit ":/"))))
       (.chr '/')

/-! ### The UrlField widget -/

/-- The props bag of a `UrlField` component: the standard `value` prop, the
`websitePath` option, and the two extra declared props `placeholder` and
`text` (the latter two are never read by `formattedHref`). -/
structure UrlFieldProps where
  value : JSVal
  websitePath : JSVal
  placeholder : JSVal
  text : JSVal
deriving DecidableEq, Repr

namespace UrlField

/-- The `formattedHref` getter of `UrlField`:
if the value is truthy and the `websitePath` option is not, prepend
`http://` unless the value already passes the URL-shape regex test;
otherwise return the value untouched. -/
def formattedHref (props : UrlFieldProps) : JSVal :=
  let value := props.value
  if value.truthy && !props.websitePath.truthy then
    if !(jsRegexTest urlRegex value.toStr) then .str ("http://" ++ value.toStr)
    else value
  else value

/-- The `formattedHref` getter with every JavaScript coercion step made
fallible (`ToString` at the `regex.test` argument and at the template
literal): shows where an exception could arise. -/
def formattedHrefE (props : UrlFieldProps) : Except JSErr JSVal :=
  let value := props.value
  if value.truthy && !props.websitePath.truthy then
    match value.toStrE with
    | .error e => .error e
    | .ok s =>
        if !(jsRegexTest urlRegex s) then
          match value.toStrE with
          | .error e => .error e
          | .ok s2 => .ok (.str ("http://" ++ s2))
        else .ok value
  else .ok value

/-- State-passing form of the `formattedHref` getter: the props bag is
threaded through the computation and returned, so any mutation of the
props would be visible in the second component.  The body mirrors the
getter, which only rebinds its local `value` variable. -/
def formattedHrefRun (props : UrlFieldProps) : JSVal × UrlFieldProps :=
  let value := props.value
  let value :=
    if value.truthy && !props.websitePath.truthy then
      if !(jsRegexTest urlRegex value.toStr) then JSVal.str ("http://" ++ value.toStr)
      else value
    else value
  (value, props)

/-- The `getValue` callback installed by `setup` through `useInputField`:
`this.props.value || ""`. -/
def getValue (props : UrlFieldProps) : JSVal :=
  if props.value.truthy then props.value else .str ""

end UrlField

/-- The behaviour of a field component class that matters here: its
template name, its `formattedHref` getter and the `getValue` callback its
`setup` installs. -/
structure UrlFieldClass where
  template : String
  formattedHref : UrlFieldProps → JSVal
  setupGetValue : UrlFieldProps → JSVal

/-- The `UrlField` class as registered under the `url` key. -/
def urlFieldClass : UrlFieldClass :=
  { template := "web.UrlField"
    formattedHref := UrlField.formattedHref
    setupGetValue := UrlField.getValue }

/-- The `FormUrlField` subclass: an empty `extends UrlField` body that only
reassigns the static `template` property. -/
def formUrlFieldClass : UrlFieldClass :=
  { urlFieldClass with template := "web.FormUrlField" }

/-! ### Spec-side description of the URL regex -/

/-- Case-insensitive "starts with" on strings, via lower-cased character
lists. -/
def ciStartsWith (pat s : String) : Bool :=
  List.isPrefixOf (pat.data.map Char.toLower) (s.data.map Char.toLower)

/-- Spec-side reading of the regex literal: the value begins (case
insensitively) with `http://`, `https://`, `ftp://`, `ftps://` or a
leading `/`. -/
def ciHasUrlStart (s : String) : Bool :=
  ciStartsWith "/" s || ciStartsWith "ftp://" s || ciStartsWith "ftps://" s
    || ciStartsWith "http://" s || ciStartsWith "https://" s

/-- Case-insensitive match of a whole pattern word against a character
list, character by character (the language of `Regex.lit`). -/
def ciMatches (pat : String) (w : List Char) : Prop :=
  List.Forall₂ (fun c a => cmatch c a = true) pat.data w

/-! ### minimal_dom.js: DEBOUNCE and makeAsyncHandler -/

/-- The debounce delay constant of `minimal_dom.js`, in milliseconds. -/
def DEBOUNCE : Nat := 400

/-- Outcome with which a promise (the action of a handler) settles. -/
inductive Outcome where
  | fulfilled
  | rejected
deriving DecidableEq, Repr

/-- State of one handler produced by `makeAsyncHandler`: the captured
`pending` boolean, together with a ghost counter of the invocations of
`fct` whose action has started and not yet settled.  The counter is not a
program variable; it makes the no-overlapping-executions property
statable. -/
structure AHState where
  pending : Bool
  inFlight : Nat
deriving DecidableEq, Repr

/-- Initial state of a freshly created handler (`let pending = false`). -/
def ahInit : AHState := ⟨false, 0⟩

/-- What one invocation of the handler produces: the successor state,
whether `fct` was called during this invocation, and the value the
handler returned. -/
structure AHInvokeResult where
  state : AHState
  fctCalled : Bool
  ret : JSVal
deriving DecidableEq, Repr

/-- One invocation of the handler returned by `makeAsyncHandler fct _ _`,
where `fctResult` is the value `fct` would return.  If `_isLocked()` holds
the invocation is ignored: `fct` is not called and the bare `return`
yields `undefined`.  Otherwise `_lock()` runs, `fct` is applied exactly
once, `Promise.resolve(result).finally(_unlock)` registers the later
unlock (tracked by the ghost `inFlight` counter) and `result` is
returned. -/
def ahInvoke (st : AHState) (fctResult : JSVal) : AHInvokeResult :=
  if st.pending then ⟨st, false, .undefined⟩
  else ⟨⟨true, st.inFlight + 1⟩, true, fctResult⟩

/-- Settlement of the action of a previous unlocked invocation.  By the
semantics of `Promise.prototype.finally`, `_unlock` runs whether the
action fulfilled or rejected (and `Promise.resolve` of a non-promise
result fulfils immediately), so `pending` is cleared in every case. -/
def ahSettle (st : AHState) (_o : Outcome) : AHState :=
  ⟨false, st.inFlight - 1⟩

/-- An event observable by one async handler on the event loop: an
invocation (carrying the value `fct` would return) or the settlement of a
started action. -/
inductive AHEvent where
  | invoke (fctResult : JSVal)
  | settle (o : Outcome)
deriving DecidableEq, Repr

/-- State transition of the handler on one event. -/
def ahStep (st : AHState) : AHEvent → AHState
  | .invoke r => (ahInvoke st r).state
  | .settle o => ahSettle st o

/-- Run of the handler over a list of events. -/
def ahRun (st : AHState) : List AHEvent → AHState
  | [] => st
  | e :: es => ahRun (ahStep st e) es

/-- A trace is valid from a state when every `settle` event settles an
action that is actually in flight: each `finally` callback fires exactly
once, for an action that was started. -/
def ahValid (st : AHState) : List AHEvent → Bool
  | [] => true
  | e :: es =>
      (match e with
       | .invoke _ => true
       | .settle _ => decide (0 < st.inFlight)) && ahValid (ahStep st e) es

/-! ### minimal_dom.js: buttons, addButtonLoadingEffect, makeButtonHandler -/

/-- The DOM state of a button element that this code touches: its class
list (a `DOMTokenList`: ordered, duplicate-free under `add`), its
`disabled` property, and the number of loader spans prepended by
`addButtonLoadingEffect` and not yet removed. -/
structure Button where
  classes : List String
  disabled : Bool
  loaders : Nat
deriving DecidableEq, Repr

/-- `DOMTokenList.add`: appends the token unless it is already present. -/
def classListAdd (cs : List String) (c : String) : List String :=
  if c ∈ cs then cs else cs ++ [c]

/-- `DOMTokenList.remove`: removes every occurrence of the token. -/
def classListRemove (cs : List String) (c : String) : List String :=
  cs.filter (fun x => !(x == c))

/-- `addButtonLoadingEffect btnEl`: adds the `o_website_btn_loading` and
`disabled` classes, sets the `disabled` property, and prepends a spinner
span to the button. -/
def addButtonLoadingEffect (b : Button) : Button :=
  { classes := classListAdd (classListAdd b.classes "o_website_btn_loading") "disabled"
    disabled := true
    loaders := b.loaders + 1 }

/-- The restore callback returned by `addButtonLoadingEffect`:
unconditionally removes the two classes, clears the `disabled` property
and removes the prepended spinner span. -/
def restoreButtonLoadingEffect (b : Button) : Button :=
  { classes := classListRemove (classListRemove b.classes "o_website_btn_loading") "disabled"
    disabled := false
    loaders := b.loaders - 1 }

/-- What the synchronous part of one invocation of the handler returned by
`makeButtonHandler fct` produces: the state of the wrapped async handler,
whether `fct` was called, the button after the synchronous DOM update
(`none` when `ev.target.closest('.btn')` found no button), the delay in
milliseconds until the scheduled `then` callback runs (`none` when no
button was found, so nothing was scheduled), and the returned value. -/
structure MBHSyncResult where
  state : AHState
  fctCalled : Bool
  button : Option Button
  timerDelay : Option Nat
  ret : JSVal
deriving DecidableEq, Repr

/-- The synchronous part of one invocation of the handler returned by
`makeButtonHandler fct`, where `btnEl` is the result of
`ev.target.closest('.btn')`.  The handler first applies the
`makeAsyncHandler`-wrapped `fct` (line `fct = makeAsyncHandler(fct)`),
then, if a button was found, adds the `pe-none` class and schedules
`Promise.resolve(DEBOUNCE && new Promise(r => setTimeout(r, DEBOUNCE)))
.then(...)`: since `DEBOUNCE` is nonzero it is truthy, so the `then`
callback runs when the `setTimeout` timer fires after `DEBOUNCE`
milliseconds (a falsy `DEBOUNCE` would make it run at once). -/
def makeButtonHandlerSync (st : AHState) (fctResult : JSVal) (btnEl : Option Button) :
    MBHSyncResult :=
  let inner := ahInvoke st fctResult
  match btnEl with
  | none => ⟨inner.state, inner.fctCalled, none, none, inner.ret⟩
  | some b =>
      ⟨inner.state, inner.fctCalled,
       some { b with classes := classListAdd b.classes "pe-none" },
       some (if DEBOUNCE == 0 then 0 else DEBOUNCE),
       inner.ret⟩

/-- The `then` callback of `makeButtonHandler`, run when the debounce
timer fires: removes the `pe-none` class and applies
`addButtonLoadingEffect`. -/
def makeButtonHandlerTimerCb (b : Button) : Button :=
  addButtonLoadingEffect { b with classes := classListRemove b.classes "pe-none" }

/-- The `finally(restore)` callback of `makeButtonHandler`, run when the
action result settles (with either outcome) after the timer fired:
restores the loading effect. -/
def makeButtonHandlerSettleCb (b : Button) (_o : Outcome) : Button :=
  restoreButtonLoadingEffect b

/-! ### Correctness of the derivative matcher -/

theorem rmatch_fail {w : List Char} : ¬ RMatch .fail w := by
  intro h; cases h

theorem rmatch_eps_iff {w : List Char} : RMatch .eps w ↔ w = [] := by
  constructor
  · intro h; cases h; rfl
  · rintro rfl; exact .eps

theorem rmatch_chr_iff {c : Char} {w : List Char} :
    RMatch (.chr c) w ↔ ∃ a, w = [a] ∧ cmatch c a = true := by
  constructor
  · intro h
    cases h with
    | chr h => exact ⟨_, rfl, h⟩
  · rintro ⟨a, rfl, h⟩; exact .chr h

theorem rmatch_alt_iff {r1 r2 : Regex} {w : List Char} :
    RMatch (.alt r1 r2) w ↔ RMatch r1 w ∨ RMatch r2 w := by
  constructor
  · intro h
    cases h with
    | altl h => exact Or.inl h
    | altr h => exact Or.inr h
  · rintro (h | h)
    · exact .altl h
    · exact .altr h

theorem rmatch_cat_iff {r1 r2 : Regex} {w : List Char} :
    RMatch (.cat r1 r2) w ↔ ∃ w1 w2, w = w1 ++ w2 ∧ RMatch r1 w1 ∧ RMatch r2 w2 := by
  constructor
  · intro h
    cases h with
    | cat h1 h2 => exact ⟨_, _, rfl, h1, h2⟩
  · rintro ⟨w1, w2, rfl, h1, h2⟩; exact .cat h1 h2

theorem rmatch_opt_iff {r : Regex} {w : List Char} :
    RMatch (.opt r) w ↔ w = [] ∨ RMatch r w := by
  constructor
  · intro h
    cases h with
    | optNil => exact Or.inl rfl
    | optSome h => exact Or.inr h
  · rintro (rfl | h)
    · exact .optNil
    · exact .optSome h

theorem Regex.nullable_iff (r : Regex) : r.nullable = true ↔ RMatch r [] := by
  induction r with
  | fail => exact iff_of_false (by simp [Regex.nullable]) rmatch_fail
  | eps => exact iff_of_true rfl .eps
  | chr c =>
      refine iff_of_false (by simp [Regex.nullable]) ?_
      intro h
      rcases rmatch_chr_iff.mp h with ⟨a, ha, _⟩
      simp at ha
  | alt r1 r2 ih1 ih2 =>
      simp only [Regex.nullable, Bool.or_eq_true, ih1, ih2, rmatch_alt_iff]
  | cat r1 r2 ih1 ih2 =>
      simp only [Regex.nullable, Bool.and_eq_true, ih1, ih2, rmatch_cat_iff]
      constructor
      · rintro ⟨h1, h2⟩; exact ⟨[], [], rfl, h1, h2⟩
      · rintro ⟨w1, w2, h, h1, h2⟩
        rcases List.append_eq_nil.mp h.symm with ⟨rfl, rfl⟩
        exact ⟨h1, h2⟩
  | opt r ih => exact iff_of_true rfl .optNil

theorem Regex.deriv_iff (r : Regex) (a : Char) (w : List Char) :
    RMatch (r.deriv a) w ↔ RMatch r (a :: w) := by
  induction r generalizing w with
  | fail => exact iff_of_false rmatch_fail rmatch_fail
  | eps =>
      refine iff_of_false rmatch_fail ?_
      intro h
      have := rmatch_eps_iff.mp h
      simp at this
  | chr c =>
      simp only [Regex.deriv]
      by_cases hc : cmatch c a = true
      · rw [if_pos hc, rmatch_eps_iff, rmatch_chr_iff]
        constructor
        · rintro rfl; exact ⟨a, rfl, hc⟩
        · rintro ⟨b, hb, _⟩
          simp only [List.cons.injEq] at hb
          exact hb.2
      · rw [if_neg hc]
        refine iff_of_false rmatch_fail ?_
        intro h
        rcases rmatch_chr_iff.mp h with ⟨b, hb, hcb⟩
        simp only [List.cons.injEq] at hb
        exact hc (hb.1 ▸ hcb)
  | alt r1 r2 ih1 ih2 =>
      simp only [Regex.deriv, rmatch_alt_iff, ih1, ih2]
  | cat r1 r2 ih1 ih2 =>
      simp only [Regex.deriv]
      by_cases hn : r1.nullable = true
      · rw [if_pos hn, rmatch_alt_iff, rmatch_cat_iff, rmatch_cat_iff]
        constructor
        · rintro (⟨w1, w2, rfl, h1, h2⟩ | h)
          · exact ⟨a :: w1, w2, rfl, (ih1 w1).mp h1, h2⟩
          · exact ⟨[], a :: w, rfl, (Regex.nullable_iff r1).mp hn, (ih2 w).mp h⟩
        · rintro ⟨w1, w2, hw, h1, h2⟩
          cases w1 with
          | nil =>
              simp only [List.nil_append] at hw
              subst hw
              exact Or.inr ((ih2 w).mpr h2)
          | cons b w1' =>
              simp only [List.cons_append, List.cons.injEq] at hw
              obtain ⟨rfl, rfl⟩ := hw
              exact Or.inl ⟨w1', w2, rfl, (ih1 w1').mpr h1, h2⟩
      · rw [if_neg hn, rmatch_cat_iff, rmatch_cat_iff]
        constructor
        · rintro ⟨w1, w2, rfl, h1, h2⟩
          exact ⟨a :: w1, w2, rfl, (ih1 w1).mp h1, h2⟩
        · rintro ⟨w1, w2, hw, h1, h2⟩
          cases w1 with
          | nil => exact absurd ((Regex.nullable_iff r1).mpr h1) hn
          | cons b w1' =>
              simp only [List.cons_append, List.cons.injEq] at hw
              obtain ⟨rfl, rfl⟩ := hw
              exact ⟨w1', w2, rfl, (ih1 w1').mpr h1, h2⟩
  | opt r ih =>
      simp only [Regex.deriv, ih, rmatch_opt_iff]
      constructor
      · exact Or.inr
      · rintro (h | h)
        · simp at h
        · exact h

theorem Regex.search_iff (w : List Char) (r : Regex) :
    r.search w = true ↔ ∃ p q, w = p ++ q ∧ RMatch r p := by
  induction w generalizing r with
  | nil =>
      simp only [Regex.search, Regex.nullable_iff]
      constructor
      · intro h; exact ⟨[], [], rfl, h⟩
      · rintro ⟨p, q, hpq, hp⟩
        rcases List.append_eq_nil.mp hpq.symm with ⟨rfl, rfl⟩
        exact hp
  | cons a w ih =>
      simp only [Regex.search, Bool.or_eq_true, Regex.nullable_iff, ih]
      constructor
      · rintro (h | ⟨p, q, rfl, hp⟩)
        · exact ⟨[], a :: w, rfl, h⟩
        · exact ⟨a :: p, q, rfl, (Regex.deriv_iff r a p).mp hp⟩
      · rintro ⟨p, q, hpq, hp⟩
        cases p with
        | nil =>
            simp only [List.nil_append] at hpq
            exact Or.inl hp
        | cons b p' =>
            simp only [List.cons_append, List.cons.injEq] at hpq
            obtain ⟨rfl, rfl⟩ := hpq
            exact Or.inr ⟨p', q, rfl, (Regex.deriv_iff r a p').mpr hp⟩

theorem rmatch_foldr_lit (cs : List Char) (w : List Char) :
    RMatch (cs.foldr (fun c r => .cat (.chr c) r) .eps) w ↔
      List.Forall₂ (fun c a => cmatch c a = true) cs w := by
  induction cs generalizing w with
  | nil =>
      simp only [List.foldr_nil]
      rw [rmatch_eps_iff]
      constructor
      · rintro rfl; exact List.Forall₂.nil
      · intro h; cases h; rfl
  | cons c cs ih =>
      simp only [List.foldr_cons]
      rw [rmatch_cat_iff]
      constructor
      · rintro ⟨w1, w2, rfl, h1, h2⟩
        rcases rmatch_chr_iff.mp h1 with ⟨a, rfl, hca⟩
        exact List.Forall₂.cons hca ((ih w2).mp h2)
      · intro h
        cases h with
        | cons ha hrest =>
            exact ⟨[_], _, rfl, rmatch_chr_iff.mpr ⟨_, rfl, ha⟩, (ih _).mpr hrest⟩

theorem rmatch_lit_iff (s : String) (w : List Char) :
    RMatch (.lit s) w ↔ ciMatches s w :=
  rmatch_foldr_lit s.data w

theorem forall2_cmatch_iff (pat w : List Char) :
    List.Forall₂ (fun c a => cmatch c a = true) pat w ↔
      pat.map Char.toLower = w.map Char.toLower := by
  induction pat generalizing w with
  | nil =>
      rw [List.forall₂_nil_left_iff]
      constructor
      · rintro rfl; rfl
      · intro h
        cases w with
        | nil => rfl
        | cons b w => simp at h
  | cons c pat ih =>
      cases w with
      | nil =>
          constructor
          · intro h
            rw [List.forall₂_nil_right_iff] at h
            simp at h
          · intro h; simp at h
      | cons b w =>
          simp only [List.map_cons, List.cons.injEq]
          constructor
          · intro h
            cases h with
            | cons hc hr =>
                refine ⟨?_, (ih w).mp hr⟩
                simpa [cmatch] using hc
          · rintro ⟨h1, h2⟩
            exact List.Forall₂.cons (by simp [cmatch, h1]) ((ih w).mpr h2)

theorem ciMatches_iff_map (pat : String) (w : List Char) :
    ciMatches pat w ↔ pat.data.map Char.toLower = w.map Char.toLower :=
  forall2_cmatch_iff pat.data w

theorem exists_split_map_iff (t w : List Char) (f : Char → Char) :
    (∃ p q, w = p ++ q ∧ p.map f = t) ↔ t <+: w.map f := by
  constructor
  · rintro ⟨p, q, rfl, rfl⟩
    rw [List.map_append]
    exact List.prefix_append _ _
  · intro h
    refine ⟨w.take t.length, w.drop t.length, (List.take_append_drop _ _).symm, ?_⟩
    rw [List.map_take]
    exact (List.prefix_iff_eq_take.mp h).symm

theorem ciMatches_split_iff (pat : String) (w : List Char) :
    (∃ p q, w = p ++ q ∧ ciMatches pat p) ↔
      List.isPrefixOf (pat.data.map Char.toLower) (w.map Char.toLower) = true := by
  rw [ List.isPrefixOf_iff_prefix, ← exists_split_map_iff]
  constructor
  · rintro ⟨p, q, rfl, hm⟩
    exact ⟨p, q, rfl, ((ciMatches_iff_map pat p).mp hm).symm⟩
  · rintro ⟨p, q, rfl, hm⟩
    exact ⟨p, q, rfl, (ciMatches_iff_map pat p).mpr hm.symm⟩

/-- The language of the embedded regex literal: a word matches
`((ftp|http)s?:\/)?\/` exactly when it is a case-insensitive rendering of
`/`, `ftp://`, `ftps://`, `http://` or `https://`. -/
theorem rmatch_urlRegex_iff (p : List Char) :
    RMatch urlRegex p ↔
      ciMatches "/" p ∨ ciMatches "ftp://" p ∨ ciMatches "ftps://" p ∨
        ciMatches "http://" p ∨ ciMatches "https://" p := by
  constructor
  · intro h
    rcases rmatch_cat_iff.mp h with ⟨w1, w2, rfl, h1, h2⟩
    rcases rmatch_chr_iff.mp h2 with ⟨a, rfl, ha⟩
    have hsl : List.Forall₂ (fun c b => cmatch c b = true) ['/'] [a] :=
      List.Forall₂.cons ha List.Forall₂.nil
    rcases rmatch_opt_iff.mp h1 with rfl | hG
    · exact Or.inl hsl
    · rcases rmatch_cat_iff.mp hG with ⟨u, v, rfl, hu, hv⟩
      rcases rmatch_cat_iff.mp hv with ⟨x, y, rfl, hx, hy⟩
      have hy2 : List.Forall₂ (fun c b => cmatch c b = true) [':', '/'] y :=
        (rmatch_lit_iff ":/" y).mp hy
      have hx0 : List.Forall₂ (fun c b => cmatch c b = true) ([] : List Char) [] :=
        List.Forall₂.nil
      rcases rmatch_alt_iff.mp hu with hftp | hhttp
      · have hu3 : List.Forall₂ (fun c b => cmatch c b = true) ['f', 't', 'p'] u :=
          (rmatch_lit_iff "ftp" u).mp hftp
        rcases rmatch_opt_iff.mp hx with rfl | hs
        · exact Or.inr (Or.inl
            (List.rel_append (List.rel_append hu3 (List.rel_append hx0 hy2)) hsl))
        · rcases rmatch_chr_iff.mp hs with ⟨b, rfl, hb⟩
          have hxb : List.Forall₂ (fun c b => cmatch c b = true) ['s'] [b] :=
            List.Forall₂.cons hb List.Forall₂.nil
          exact Or.inr (Or.inr (Or.inl
            (List.rel_append (List.rel_append hu3 (List.rel_append hxb hy2)) hsl)))
      · have hu4 : List.Forall₂ (fun c b => cmatch c b = true) ['h', 't', 't', 'p'] u :=
          (rmatch_lit_iff "http" u).mp hhttp
        rcases rmatch_opt_iff.mp hx with rfl | hs
        · exact Or.inr (Or.inr (Or.inr (Or.inl
            (List.rel_append (List.rel_append hu4 (List.rel_append hx0 hy2)) hsl))))
        · rcases rmatch_chr_iff.mp hs with ⟨b, rfl, hb⟩
          have hxb : List.Forall₂ (fun c b => cmatch c b = true) ['s'] [b] :=
            List.Forall₂.cons hb List.Forall₂.nil
          exact Or.inr (Or.inr (Or.inr (Or.inr
            (List.rel_append (List.rel_append hu4 (List.rel_append hxb hy2)) hsl))))
  · rintro (h | h | h | h | h) <;>
      simp only [ciMatches, List.forall₂_cons_left_iff, List.forall₂_nil_left_iff] at h
    · obtain ⟨b1, u1, hc1, rfl, rfl⟩ := h
      exact rmatch_cat_iff.mpr ⟨[], [b1], rfl, .optNil, rmatch_chr_iff.mpr ⟨b1, rfl, hc1⟩⟩
    · obtain ⟨b1, -, hc1, ⟨b2, -, hc2, ⟨b3, -, hc3, ⟨b4, -, hc4,
        ⟨b5, -, hc5, ⟨b6, -, hc6, rfl, rfl⟩, rfl⟩, rfl⟩, rfl⟩, rfl⟩, rfl⟩ := h
      refine rmatch_cat_iff.mpr ⟨[b1, b2, b3, b4, b5], [b6], rfl, ?_,
        rmatch_chr_iff.mpr ⟨b6, rfl, hc6⟩⟩
      refine rmatch_opt_iff.mpr (Or.inr (rmatch_cat_iff.mpr
        ⟨[b1, b2, b3], [b4, b5], rfl, ?_, ?_⟩))
      · exact rmatch_alt_iff.mpr (Or.inl ((rmatch_lit_iff "ftp" _).mpr
          (List.Forall₂.cons hc1 (List.Forall₂.cons hc2
            (List.Forall₂.cons hc3 List.Forall₂.nil)))))
      · exact rmatch_cat_iff.mpr ⟨[], [b4, b5], rfl, rmatch_opt_iff.mpr (Or.inl rfl),
          (rmatch_lit_iff ":/" _).mpr
            (List.Forall₂.cons hc4 (List.Forall₂.cons hc5 List.Forall₂.nil))⟩
    · obtain ⟨b1, -, hc1, ⟨b2, -, hc2, ⟨b3, -, hc3, ⟨b4, -, hc4, ⟨b5, -, hc5,
        ⟨b6, -, hc6, ⟨b7, -, hc7, rfl, rfl⟩, rfl⟩, rfl⟩, rfl⟩, rfl⟩, rfl⟩, rfl⟩ := h
      refine rmatch_cat_iff.mpr ⟨[b1, b2, b3, b4, b5, b6], [b7], rfl, ?_,
        rmatch_chr_iff.mpr ⟨b7, rfl, hc7⟩⟩
      refine rmatch_opt_iff.mpr (Or.inr (rmatch_cat_iff.mpr
        ⟨[b1, b2, b3], [b4, b5, b6], rfl, ?_, ?_⟩))
      · exact rmatch_alt_iff.mpr (Or.inl ((rmatch_lit_iff "ftp" _).mpr
          (List.Forall₂.cons hc1 (List.Forall₂.cons hc2
            (List.Forall₂.cons hc3 List.Forall₂.nil)))))
      · exact rmatch_cat_iff.mpr ⟨[b4], [b5, b6], rfl,
          rmatch_opt_iff.mpr (Or.inr (rmatch_chr_iff.mpr ⟨b4, rfl, hc4⟩)),
          (rmatch_lit_iff ":/" _).mpr
            (List.Forall₂.cons hc5 (List.Forall₂.cons hc6 List.Forall₂.nil))⟩
    · obtain ⟨b1, -, hc1, ⟨b2, -, hc2, ⟨b3, -, hc3, ⟨b4, -, hc4, ⟨b5, -, hc5,
        ⟨b6, -, hc6, ⟨b7, -, hc7, rfl, rfl⟩, rfl⟩, rfl⟩, rfl⟩, rfl⟩, rfl⟩, rfl⟩ := h
      refine rmatch_cat_iff.mpr ⟨[b1, b2, b3, b4, b5, b6], [b7], rfl, ?_,
        rmatch_chr_iff.mpr ⟨b7, rfl, hc7⟩⟩
      refine rmatch_opt_iff.mpr (Or.inr (rmatch_cat_iff.mpr
        ⟨[b1, b2, b3, b4], [b5, b6], rfl, ?_, ?_⟩))
      · exact rmatch_alt_iff.mpr (Or.inr ((rmatch_lit_iff "http" _).mpr
          (List.Forall₂.cons hc1 (List.Forall₂.cons hc2 (List.Forall₂.cons hc3
            (List.Forall₂.cons hc4 List.Forall₂.nil))))))
      · exact rmatch_cat_iff.mpr ⟨[], [b5, b6], rfl, rmatch_opt_iff.mpr (Or.inl rfl),
          (rmatch_lit_iff ":/" _).mpr
            (List.Forall₂.cons hc5 (List.Forall₂.cons hc6 List.Forall₂.nil))⟩
    · obtain ⟨b1, -, hc1, ⟨b2, -, hc2, ⟨b3, -, hc3, ⟨b4, -, hc4, ⟨b5, -, hc5,
        ⟨b6, -, hc6, ⟨b7, -, hc7, ⟨b8, -, hc8, rfl, rfl⟩, rfl⟩, rfl⟩, rfl⟩,
          rfl⟩, rfl⟩, rfl⟩, rfl⟩ := h
      refine rmatch_cat_iff.mpr ⟨[b1, b2, b3, b4, b5, b6, b7], [b8], rfl, ?_,
        rmatch_chr_iff.mpr ⟨b8, rfl, hc8⟩⟩
      refine rmatch_opt_iff.mpr (Or.inr (rmatch_cat_iff.mpr
        ⟨[b1, b2, b3, b4], [b5, b6, b7], rfl, ?_, ?_⟩))
      · exact rmatch_alt_iff.mpr (Or.inr ((rmatch_lit_iff "http" _).mpr
          (List.Forall₂.cons hc1 (List.Forall₂.cons hc2 (List.Forall₂.cons hc3
            (List.Forall₂.cons hc4 List.Forall₂.nil))))))
      · exact rmatch_cat_iff.mpr ⟨[b5], [b6, b7], rfl,
          rmatch_opt_iff.mpr (Or.inr (rmatch_chr_iff.mpr ⟨b5, rfl, hc5⟩)),
          (rmatch_lit_iff ":/" _).mpr
            (List.Forall₂.cons hc6 (List.Forall₂.cons hc7 List.Forall₂.nil))⟩

/-- `test` of the embedded regex literal coincides with the spec-side
prefix description for every string. -/
theorem jsRegexTest_urlRegex (s : String) :
    jsRegexTest urlRegex s = ciHasUrlStart s := by
  rw [Bool.eq_iff_iff]
  unfold jsRegexTest ciHasUrlStart ciStartsWith
  rw [Regex.search_iff]
  simp only [rmatch_urlRegex_iff, and_or_left, exists_or, ciMatches_split_iff,
    Bool.or_eq_true]
  tauto

/-! ### Helper lemmas -/

theorem JSVal.toStrE_eq (v : JSVal) : v.toStrE = .ok v.toStr := by
  cases v with
  | str s => rfl
  | num n => rfl
  | boolean b => cases b <;> rfl
  | null => rfl
  | undefined => rfl

theorem formattedHrefE_eq_ok (p : UrlFieldProps) :
    UrlField.formattedHrefE p = .ok (UrlField.formattedHref p) := by
  unfold UrlField.formattedHrefE UrlField.formattedHref
  simp only [JSVal.toStrE_eq]
  split
  · split <;> rfl
  · rfl

theorem mem_classListAdd {cs : List String} {c x : String} :
    x ∈ classListAdd cs c ↔ x ∈ cs ∨ x = c := by
  unfold classListAdd
  split
  · rename_i hc
    constructor
    · exact Or.inl
    · rintro (h | rfl)
      · exact h
      · exact hc
  · simp [List.mem_append]

theorem mem_classListRemove {cs : List String} {c x : String} :
    x ∈ classListRemove cs c ↔ x ∈ cs ∧ x ≠ c := by
  unfold classListRemove
  simp [List.mem_filter]

theorem classListRemove_of_not_mem {cs : List String} {c : String} (h : c ∉ cs) :
    classListRemove cs c = cs := by
  unfold classListRemove
  refine List.filter_eq_self.mpr ?_
  intro a ha
  simp only [Bool.not_eq_true', beq_eq_false_iff_ne, ne_eq]
  rintro rfl
  exact h ha

theorem ahRun_invariant (es : List AHEvent) (st : AHState)
    (hv : ahValid st es = true)
    (hi : st.inFlight = (if st.pending then 1 else 0)) :
    (ahRun st es).inFlight = (if (ahRun st es).pending then 1 else 0) := by
  induction es generalizing st with
  | nil => exact hi
  | cons e es ih =>
      simp only [ahValid, Bool.and_eq_true] at hv
      refine ih _ hv.2 ?_
      cases e with
      | invoke r =>
          by_cases hp : st.pending
          · simpa [ahStep, ahInvoke, hp] using hi
          · simp only [Bool.not_eq_true] at hp
            simp [ahStep, ahInvoke, hp, hi]
      | settle o =>
          have h1 : 0 < st.inFlight := by simpa using hv.1
          simp only [ahStep, ahSettle]
          rw [hi] at h1
          by_cases hp : st.pending
          · rw [hi, if_pos hp]
            simp
          · rw [if_neg hp] at h1
            exact absurd h1 (by simp)

/-! ### Claim theorems -/

/-- C2: for a `UrlField` whose `props.value` is a truthy string and whose
`props.websitePath` is not truthy, `formattedHref` returns the value
unchanged when it begins (case insensitively) with `http://`, `https://`,
`ftp://`, `ftps://` or a leading `/`, and returns `http://` concatenated
with the value otherwise; no error is raised on a malformed URL string. -/
theorem urlField_formattedHref_spec (p : UrlFieldProps) (s : String)
    (hv : p.value = .str s) (hs : s ≠ "")
    (hw : p.websitePath.truthy = false) :
    UrlField.formattedHref p =
        (if ciHasUrlStart s then .str s else .str ("http://" ++ s)) ∧
      UrlField.formattedHrefE p = .ok (UrlField.formattedHref p) := by
  refine ⟨?_, formattedHrefE_eq_ok p⟩
  unfold UrlField.formattedHref
  rw [hv, hw]
  dsimp only
  have hts : (JSVal.str s).truthy = true := by
    simp [JSVal.truthy, hs]
  have hstr : (JSVal.str s).toStr = s := rfl
  rw [hts, hstr, jsRegexTest_urlRegex]
  cases hc : ciHasUrlStart s <;> simp [hc]

theorem urlField_formattedHref_spec_witness :
    ((JSVal.str "example.com" : JSVal) = .str "example.com" ∧ "example.com" ≠ "" ∧
        (JSVal.undefined).truthy = false) ∧
      UrlField.formattedHref ⟨.str "example.com", .undefined, .undefined, .undefined⟩ =
        .str "http://example.com" := by
  refine ⟨⟨rfl, by decide, rfl⟩, ?_⟩
  have h := (urlField_formattedHref_spec
    ⟨.str "example.com", .undefined, .undefined, .undefined⟩ "example.com" rfl
    (by decide) rfl).1
  rw [h]
  decide

/-- C9: when `props.websitePath` is truthy or `props.value` is falsy,
`formattedHref` is the identity: it returns `props.value` itself, with no
prefixing and no string conversion. -/
theorem urlField_formattedHref_id (p : UrlFieldProps)
    (h : p.websitePath.truthy = true ∨ p.value.truthy = false) :
    UrlField.formattedHref p = p.value := by
  unfold UrlField.formattedHref
  rcases h with h | h <;> simp [h]

theorem urlField_formattedHref_id_witness :
    (JSVal.null).truthy = false ∧
      UrlField.formattedHref ⟨.null, .undefined, .undefined, .undefined⟩ = .null :=
  ⟨rfl, urlField_formattedHref_id ⟨.null, .undefined, .undefined, .undefined⟩
    (Or.inr rfl)⟩

/-- C4: evaluating `formattedHref` never raises an error, whatever the
prop value (malformed URL string, non-string, null, undefined or empty
string): every coercion succeeds and a value is always returned — either
`props.value` itself or a `http://`-prefixed string. -/
theorem urlField_formattedHref_total (p : UrlFieldProps) :
    UrlField.formattedHrefE p = .ok (UrlField.formattedHref p) ∧
      (UrlField.formattedHref p = p.value ∨
        ∃ s, UrlField.formattedHref p = .str ("http://" ++ s)) := by
  refine ⟨formattedHrefE_eq_ok p, ?_⟩
  unfold UrlField.formattedHref
  dsimp only
  split
  · split
    · exact Or.inr ⟨_, rfl⟩
    · exact Or.inl rfl
  · exact Or.inl rfl

/-- C7: `formattedHref` is deterministic and side-effect free: its result
depends only on `props.value` and `props.websitePath`, and its evaluation
leaves the props bag unchanged. -/
theorem urlField_formattedHref_pure (p q : UrlFieldProps)
    (hv : p.value = q.value) (hw : p.websitePath = q.websitePath) :
    UrlField.formattedHref p = UrlField.formattedHref q ∧
      UrlField.formattedHrefRun p = (UrlField.formattedHref p, p) := by
  constructor
  · unfold UrlField.formattedHref
    rw [hv, hw]
  · rfl

theorem urlField_formattedHref_pure_witness :
    UrlField.formattedHref ⟨.str "a.com", .undefined, .str "x", .null⟩ =
        UrlField.formattedHref ⟨.str "a.com", .undefined, .null, .str "y"⟩ ∧
      UrlField.formattedHrefRun ⟨.str "a.com", .undefined, .str "x", .null⟩ =
        (UrlField.formattedHref ⟨.str "a.com", .undefined, .str "x", .null⟩,
          ⟨.str "a.com", .undefined, .str "x", .null⟩) :=
  ⟨(urlField_formattedHref_pure ⟨.str "a.com", .undefined, .str "x", .null⟩
      ⟨.str "a.com", .undefined, .null, .str "y"⟩ rfl rfl).1,
    (urlField_formattedHref_pure ⟨.str "a.com", .undefined, .str "x", .null⟩
      ⟨.str "a.com", .undefined, .null, .str "y"⟩ rfl rfl).2⟩

/-- C6: `FormUrlField` differs from `UrlField` only in its template name
(`web.FormUrlField` instead of `web.UrlField`); it overrides nothing else,
so its `formattedHref` result and its `setup` callback agree with those of
`UrlField` on every props bag. -/
theorem formUrlField_refines_urlField :
    formUrlFieldClass.template = "web.FormUrlField" ∧
      urlFieldClass.template = "web.UrlField" ∧
      (∀ p : UrlFieldProps,
        formUrlFieldClass.formattedHref p = urlFieldClass.formattedHref p) ∧
      (∀ p : UrlFieldProps,
        formUrlFieldClass.setupGetValue p = urlFieldClass.setupGetValue p) :=
  ⟨rfl, rfl, fun _ => rfl, fun _ => rfl⟩

/-- C1: along any valid event trace of a handler made by
`makeAsyncHandler`, at most one action is ever in flight (so `fct` never
executes in two overlapping invocations); while an action is pending a new
invocation does not call `fct`, returns `undefined` and leaves the state
unchanged; when none is pending an invocation calls `fct` exactly once and
returns its result. -/
theorem makeAsyncHandler_no_overlap (es : List AHEvent)
    (hv : ahValid ahInit es = true) :
    (ahRun ahInit es).inFlight ≤ 1 ∧
      ((ahRun ahInit es).pending = true → ∀ r : JSVal,
        (ahInvoke (ahRun ahInit es) r).fctCalled = false ∧
        (ahInvoke (ahRun ahInit es) r).ret = .undefined ∧
        (ahInvoke (ahRun ahInit es) r).state = ahRun ahInit es) ∧
      ((ahRun ahInit es).pending = false → ∀ r : JSVal,
        (ahInvoke (ahRun ahInit es) r).fctCalled = true ∧
        (ahInvoke (ahRun ahInit es) r).ret = r) := by
  have hinv := ahRun_invariant es ahInit hv rfl
  refine ⟨?_, ?_, ?_⟩
  · rw [hinv]
    split <;> simp
  · intro hp r
    unfold ahInvoke
    rw [if_pos hp]
    exact ⟨rfl, rfl, rfl⟩
  · intro hp r
    simp [ahInvoke, hp]

theorem makeAsyncHandler_no_overlap_witness :
    ahValid ahInit
        [AHEvent.invoke (.str "a"), AHEvent.invoke (.str "b"),
          AHEvent.settle .rejected] = true ∧
      (ahRun ahInit
        [AHEvent.invoke (.str "a"), AHEvent.invoke (.str "b"),
          AHEvent.settle .rejected]).inFlight ≤ 1 :=
  ⟨by decide, (makeAsyncHandler_no_overlap
      [AHEvent.invoke (.str "a"), AHEvent.invoke (.str "b"),
        AHEvent.settle .rejected] (by decide)).1⟩

/-- C8: the re-entrancy lock is released when the action settles
regardless of outcome: `pending` is cleared on rejection exactly as on
fulfilment (the settled state does not depend on the outcome), and a
subsequent invocation calls `fct` again — the handler is never left
permanently locked by a failed action. -/
theorem makeAsyncHandler_unlock_on_settle (st : AHState) (o : Outcome) (r : JSVal) :
    (ahSettle st o).pending = false ∧
      ahSettle st o = ahSettle st .fulfilled ∧
      (ahInvoke (ahSettle st o) r).fctCalled = true ∧
      (ahInvoke (ahSettle st o) r).ret = r :=
  ⟨rfl, rfl, rfl, rfl⟩

/-- C5: the handler made by `makeButtonHandler` is async-guarded for every
event: whether or not the target lies inside a `.btn` element, `fct` runs
through the `makeAsyncHandler` wrapper, so it is called exactly when no
previous action is pending. -/
theorem makeButtonHandler_wraps_async (st : AHState) (r : JSVal) (btnEl : Option Button) :
    (makeButtonHandlerSync st r btnEl).fctCalled = !st.pending ∧
      (makeButtonHandlerSync st r btnEl).fctCalled = (ahInvoke st r).fctCalled ∧
      (makeButtonHandlerSync st r btnEl).state = (ahInvoke st r).state := by
  cases btnEl <;> refine ⟨?_, rfl, rfl⟩ <;>
    cases hp : st.pending <;> simp [makeButtonHandlerSync, ahInvoke, hp]

/-- C3: when the click target has a `.btn` ancestor, the handler made by
`makeButtonHandler` adds the `pe-none` class in its synchronous part, the
scheduled callback runs after exactly `DEBOUNCE` = 400 milliseconds, that
timer callback removes `pe-none`, and the settlement of the action (at
whatever time, with whatever outcome) never changes `pe-none` — so the
class is removed exactly when the timer fires. -/
theorem makeButtonHandler_debounce_timer (st : AHState) (r : JSVal) (b : Button) :
    DEBOUNCE = 400 ∧
      (makeButtonHandlerSync st r (some b)).timerDelay = some DEBOUNCE ∧
      (∃ b2, (makeButtonHandlerSync st r (some b)).button = some b2 ∧
        "pe-none" ∈ b2.classes) ∧
      (∀ c : Button, "pe-none" ∉ (makeButtonHandlerTimerCb c).classes) ∧
      (∀ c : Button, ∀ o : Outcome,
        ("pe-none" ∈ (makeButtonHandlerSettleCb c o).classes ↔
          "pe-none" ∈ c.classes)) := by
  refine ⟨rfl, rfl, ⟨_, rfl, mem_classListAdd.mpr (Or.inr rfl)⟩, ?_, ?_⟩
  · intro c hmem
    unfold makeButtonHandlerTimerCb addButtonLoadingEffect at hmem
    rcases mem_classListAdd.mp hmem with hmem | h
    · rcases mem_classListAdd.mp hmem with hmem | h
      · exact (mem_classListRemove.mp hmem).2 rfl
      · exact absurd h (by decide)
    · exact absurd h (by decide)
  · intro c o
    unfold makeButtonHandlerSettleCb restoreButtonLoadingEffect
    constructor
    · intro h
      exact (mem_classListRemove.mp (mem_classListRemove.mp h).1).1
    · intro h
      exact mem_classListRemove.mpr ⟨mem_classListRemove.mpr ⟨h, by decide⟩, by decide⟩

theorem restore_not_mem_owbl (c : Button) :
    "o_website_btn_loading" ∉ (restoreButtonLoadingEffect c).classes := by
  intro h
  exact (mem_classListRemove.mp (mem_classListRemove.mp h).1).2 rfl

theorem restore_not_mem_disabled (c : Button) :
    "disabled" ∉ (restoreButtonLoadingEffect c).classes := by
  intro h
  exact (mem_classListRemove.mp h).2 rfl

theorem classListAdd_of_not_mem {cs : List String} {c : String} (h : c ∉ cs) :
    classListAdd cs c = cs ++ [c] := by
  unfold classListAdd
  rw [if_neg h]

theorem classListRemove_append (xs ys : List String) (c : String) :
    classListRemove (xs ++ ys) c = classListRemove xs c ++ classListRemove ys c :=
  List.filter_append xs ys

/-- C10: `addButtonLoadingEffect` adds the `o_website_btn_loading` and
`disabled` classes, disables the button and prepends a spinner; the
restore callback unconditionally removes both classes and the spinner and
re-enables the button; the effect-then-restore round trip is the identity
exactly when the button was enabled and carried neither class
beforehand. -/
theorem addButtonLoadingEffect_round_trip (b : Button) :
    "o_website_btn_loading" ∈ (addButtonLoadingEffect b).classes ∧
      "disabled" ∈ (addButtonLoadingEffect b).classes ∧
      (addButtonLoadingEffect b).disabled = true ∧
      (addButtonLoadingEffect b).loaders = b.loaders + 1 ∧
      (∀ c : Button, (restoreButtonLoadingEffect c).disabled = false ∧
        "o_website_btn_loading" ∉ (restoreButtonLoadingEffect c).classes ∧
        "disabled" ∉ (restoreButtonLoadingEffect c).classes ∧
        (restoreButtonLoadingEffect c).loaders = c.loaders - 1) ∧
      (restoreButtonLoadingEffect (addButtonLoadingEffect b) = b ↔
        (b.disabled = false ∧ "o_website_btn_loading" ∉ b.classes ∧
          "disabled" ∉ b.classes)) := by
  refine ⟨mem_classListAdd.mpr (Or.inl (mem_classListAdd.mpr (Or.inr rfl))),
    mem_classListAdd.mpr (Or.inr rfl), rfl, rfl,
    fun c => ⟨rfl, restore_not_mem_owbl c, restore_not_mem_disabled c, rfl⟩, ?_, ?_⟩
  · intro h
    refine ⟨?_, ?_, ?_⟩
    · have hd := congrArg Button.disabled h
      exact hd.symm
    · intro hmem
      refine restore_not_mem_owbl (addButtonLoadingEffect b) ?_
      rw [h]
      exact hmem
    · intro hmem
      refine restore_not_mem_disabled (addButtonLoadingEffect b) ?_
      rw [h]
      exact hmem
  · rcases b with ⟨cs, dis, ld⟩
    rintro ⟨hd, ho, hdd⟩
    simp only at hd ho hdd
    subst hd
    have hdd2 : "disabled" ∉ cs ++ ["o_website_btn_loading"] := by
      intro hm
      rcases List.mem_append.mp hm with hm | hm
      · exact hdd hm
      · simp at hm
    have h1 : classListRemove ["o_website_btn_loading"] "o_website_btn_loading" =
        [] := rfl
    have h2 : classListRemove ["disabled"] "o_website_btn_loading" = ["disabled"] :=
      rfl
    have h3 : classListRemove ["disabled"] "disabled" = [] := rfl
    simp only [addButtonLoadingEffect, restoreButtonLoadingEffect, Button.mk.injEq]
    refine ⟨?_, trivial, by omega⟩
    rw [classListAdd_of_not_mem ho, classListAdd_of_not_mem hdd2]
    simp only [classListRemove_append, classListRemove_of_not_mem ho,
      classListRemove_of_not_mem hdd, h1, h2, h3, List.append_nil]

end Odoo
